import Mathlib

/-!
Verification of the projectctl project-registry core: data model, resolver,
registry persistence, recency labels and compose-service extraction, as
shallowly embedded from the Rust sources (src/project.rs, src/config.rs,
src/main.rs, src/deps.rs).

Strings are modelled by Lean `String`; byte-level operations of Rust
(`to_lowercase`, `starts_with`, `contains`, `trim`) are modelled on the
underlying character lists (faithful for ASCII data, which is all the
matching logic distinguishes).
-/

/-- Models Rust `str::to_lowercase` on a character list (ASCII-faithful). -/
def lowerL (l : List Char) : List Char := l.map Char.toLower

/-- Lowercasing of a whole string, `s.to_lowercase()`. -/
def lowerStr (s : String) : String := ⟨lowerL s.data⟩

/-- Models Rust `str::starts_with(pat)` : `pat` is a leading segment of `s`. -/
def startsWithL (s pat : List Char) : Bool := pat.isPrefixOf s

/-- Models Rust `str::contains(pat)` : `pat` occurs contiguously in `s`. -/
def containsL : List Char → List Char → Bool
  | [], pat => pat.isEmpty
  | c :: t, pat => pat.isPrefixOf (c :: t) || containsL t pat

/-- The Project record (src/project.rs, struct Project).  The Rust `HashMap`
fields `env` and `commands` are modelled as association lists in iteration
order; `last_used` is the optional RFC3339 timestamp string. -/
structure Project where
  name : String
  path : String
  project_type : String
  services : List String
  env : List (String × String)
  commands : List (String × String)
  last_used : Option String
deriving DecidableEq

/-- Project::new (src/project.rs 30–40).  The clock is passed explicitly:
`now` stands for `Utc::now().to_rfc3339()`.  Note the source initialises
`last_used` to `Some(now)`, not `None`. -/
def Project.new (name path project_type : String) (now : String) : Project :=
  { name := name
    path := path
    project_type := project_type
    services := []
    env := []
    commands := []
    last_used := some now }

/-- Project::touch (src/project.rs 53–55): overwrite `last_used` with now. -/
def Project.touch (p : Project) (now : String) : Project :=
  { p with last_used := some now }

/-- ConfigManager::find_project (src/config.rs 123–146): tiered
case-insensitive lookup — first exact match, else a unique prefix match,
else a unique substring match, else none. -/
def find_project (projects : List Project) (name : String) : Option Project :=
  let nameLower := lowerL name.data
  match projects.find? (fun p => lowerL p.name.data == nameLower) with
  | some p => some p
  | none =>
    let ms := projects.filter (fun p => startsWithL (lowerL p.name.data) nameLower)
    if ms.length = 1 then ms[0]?
    else
      let ms2 := projects.filter (fun p => containsL (lowerL p.name.data) nameLower)
      if ms2.length = 1 then ms2[0]? else none

/-- ConfigManager::find_project_mut (src/config.rs 149–183), modelled by the
position it selects for mutable write-back (the source returns
`&mut projects[idx]`). -/
def find_project_mut (projects : List Project) (name : String) : Option Nat :=
  let nameLower := lowerL name.data
  match projects.findIdx? (fun p => lowerL p.name.data == nameLower) with
  | some idx => some idx
  | none =>
    let pm := (projects.enum.filter
      (fun x => startsWithL (lowerL x.2.name.data) nameLower)).map (fun x => x.1)
    if pm.length = 1 then pm[0]?
    else
      let cm := (projects.enum.filter
        (fun x => containsL (lowerL x.2.name.data) nameLower)).map (fun x => x.1)
      if cm.length = 1 then cm[0]? else none

/-- The inline lookup of cmd_switch (src/main.rs 535–543): the position of the
first project whose lowercased name equals, starts with, or contains the
lowercased query — no tiering and no ambiguity check. -/
def switch_lookup (projects : List Project) (query : String) : Option Nat :=
  projects.findIdx? (fun p =>
    let q := lowerL query.data
    lowerL p.name.data == q
      || startsWithL (lowerL p.name.data) q
      || containsL (lowerL p.name.data) q)

/-- A minimal registry record used by concrete witnesses. -/
def sampleProject (nm : String) : Project :=
  { name := nm, path := "/tmp/proj", project_type := "unknown",
    services := [], env := [], commands := [], last_used := none }

/-- cmd_remove (src/main.rs 925–946): `retain` keeps every project whose
lowercased name differs from the lowercased argument; if nothing was removed
the command fails with NotFound (and nothing is saved), otherwise the kept
sequence is saved. -/
def cmd_remove (ps : List Project) (name : String) : Except String (List Project) :=
  let kept := ps.filter (fun p => !(lowerStr p.name == lowerStr name))
  if kept.length = ps.length then
    Except.error ("Project '" ++ name ++ "' not found.")
  else
    Except.ok kept

/-- A second sample-record maker with an explicit path, for witnesses. -/
def sampleProjectAt (nm pathStr : String) : Project :=
  { name := nm, path := pathStr, project_type := "unknown",
    services := [], env := [], commands := [], last_used := none }

/-- check_outdated (src/deps.rs 61–92): bails when the project directory does
not exist, otherwise runs the per-manager checks — which print their findings
and swallow missing-binary failures, always returning Ok — so the directory
check is the only error path.  `dirExists` models the filesystem query on the
(expanded) stored path. -/
def check_outdated (dirExists : String → Bool) (p : Project) : Except String Unit :=
  if !(dirExists p.path) then
    Except.error ("Project directory does not exist: " ++ p.path)
  else
    Except.ok ()

/-- The `deps check --all` loop (src/main.rs 778–782):
`for project in &projects { deps::check_outdated(project)?; }`.
Returns the names of the projects the loop attempted, and the error that the
`?` operator propagated, if any; projects after a failing one are never
reached. -/
def deps_check_all (dirExists : String → Bool) : List Project → List String × Option String
  | [] => ([], none)
  | p :: rest =>
    match check_outdated dirExists p with
    | Except.error e => ([p.name], some e)
    | Except.ok _ =>
      let r := deps_check_all dirExists rest
      (p.name :: r.1, r.2)

/-- cmd_add, from the point the registry is loaded (src/main.rs 889–922): the
duplicate check compares names with `==` (case-sensitive); on success the new
Project::new record — with the detected services and commands patched in — is
appended and the registry saved.  Path existence, name/type/service/command
detection are filesystem collaborators, passed as arguments. -/
def cmd_add (ps : List Project) (projectName pathStr detectedType : String)
    (detectedServices : List String) (detectedCommands : List (String × String))
    (now : String) : Except String (List Project) :=
  if ps.any (fun p => p.name == projectName) then
    Except.error ("Project '" ++ projectName ++ "' already registered. Remove it first to re-add.")
  else
    Except.ok (ps ++ [{ Project.new projectName pathStr detectedType now with
                        services := detectedServices, commands := detectedCommands }])

/-- Project::last_used_ago (src/project.rs 63–91), as a function of the
elapsed duration in whole seconds (chrono signed_duration_since; the
Duration accessors num_minutes/num_hours/num_days/num_weeks divide the
second count by 60, 3600, 86400, 604800 truncating toward zero, which is
Int.tdiv).  `none` models an absent (or unparseable) last_used. -/
def last_used_ago (elapsedSecs : Option Int) : String :=
  match elapsedSecs with
  | none => "never"
  | some secs =>
    let numMinutes := secs.tdiv 60
    let numHours := secs.tdiv 3600
    let numDays := secs.tdiv 86400
    let numWeeks := secs.tdiv 604800
    if numMinutes < 1 then "just now"
    else if numMinutes < 60 then toString numMinutes ++ " min ago"
    else if numHours < 24 then
      toString numHours ++ " hour" ++ (if numHours = 1 then "" else "s") ++ " ago"
    else if numDays < 7 then
      toString numDays ++ " day" ++ (if numDays = 1 then "" else "s") ++ " ago"
    else if numWeeks < 4 then
      toString numWeeks ++ " week" ++ (if numWeeks = 1 then "" else "s") ++ " ago"
    else
      let m := numDays.tdiv 30
      if m < 1 then "1 month ago"
      else toString m ++ " month" ++ (if m = 1 then "" else "s") ++ " ago"

/-- The banded relative-time label exactly as the spec words it, with the
band boundaries written as second counts: under 1 minute, under 60 minutes,
under 24 hours, under 7 days, under 4 weeks, else months with
N = floor(days/30) and a minimum label of "1 month ago". -/
def specRecencyLabel (secs : Int) : String :=
  if secs < 60 then "just now"
  else if secs < 3600 then toString (secs / 60) ++ " min ago"
  else if secs < 86400 then
    toString (secs / 3600) ++ " hour" ++ (if secs / 3600 = 1 then "" else "s") ++ " ago"
  else if secs < 604800 then
    toString (secs / 86400) ++ " day" ++ (if secs / 86400 = 1 then "" else "s") ++ " ago"
  else if secs < 2419200 then
    toString (secs / 604800) ++ " week" ++ (if secs / 604800 = 1 then "" else "s") ++ " ago"
  else if secs / 86400 / 30 < 1 then "1 month ago"
  else
    toString (secs / 86400 / 30) ++ " month" ++
      (if secs / 86400 / 30 = 1 then "" else "s") ++ " ago"

/-- Rust `str::trim_start` on a character list (whitespace from the left). -/
def trimStartL (l : List Char) : List Char := l.dropWhile (fun c => c.isWhitespace)

/-- Rust `str::trim_end` on a character list (whitespace from the right). -/
def trimEndL (l : List Char) : List Char :=
  (l.reverse.dropWhile (fun c => c.isWhitespace)).reverse

/-- Rust `str::trim` on a character list. -/
def trimL (l : List Char) : List Char := trimEndL (trimStartL l)

/-- Splitting a character stream at newline characters; models iterating
`content.lines()` (the final empty fragment produced by a trailing newline is
blank and is skipped by every consumer below). -/
def splitNl : List Char → List (List Char)
  | [] => [[]]
  | c :: rest =>
    match splitNl rest with
    | [] => [[c]]
    | h :: t => if c = '\n' then [] :: h :: t else (c :: h) :: t

/-- The lines skipped by the compose parser: blank, or starting with '#'. -/
def skipLine (trimmed : List Char) : Bool :=
  trimmed.isEmpty || trimmed.head? == some '#'

/-- `trimmed.ends_with(':')`. -/
def endsColon (trimmed : List Char) : Bool := trimmed.getLast? == some ':'

/-- `trimmed.trim_end_matches(':').trim()` — the service name of a key line. -/
def serviceName (trimmed : List Char) : List Char :=
  trimL ((trimmed.reverse.dropWhile (fun c => c == ':')).reverse)

/-- The indentation of a line: `line.len() - line.trim_start().len()`. -/
def indentOf (line : List Char) : Nat := line.length - (trimStartL line).length

/-- The loop of parse_compose_services (src/project.rs 273–314), one step per
line, threading the mutable state (in_services, service_indent, services);
reaching a zero-indent line while a service indent is set executes the
`break`, returning the accumulated names. -/
def composeGo : List (List Char) → Bool → Option Nat → List String → List String
  | [], _, _, services => services
  | line :: rest, inServices, serviceIndent, services =>
    let trimmed := trimL line
    if skipLine trimmed then composeGo rest inServices serviceIndent services
    else if trimmed = "services:".data then composeGo rest true none services
    else if inServices then
      let indent := indentOf line
      match serviceIndent with
      | some si =>
        if indent = 0 then services
        else if indent = si && endsColon trimmed then
          let nm := serviceName trimmed
          if nm.isEmpty then composeGo rest inServices serviceIndent services
          else composeGo rest inServices serviceIndent (services ++ [⟨nm⟩])
        else composeGo rest inServices serviceIndent services
      | none =>
        if endsColon trimmed && decide (0 < indent) then
          let nm := serviceName trimmed
          if nm.isEmpty then composeGo rest true (some indent) services
          else composeGo rest true (some indent) (services ++ [⟨nm⟩])
        else composeGo rest true none services
    else composeGo rest inServices serviceIndent services

/-- parse_compose_services (src/project.rs 273–314). -/
def parse_compose_services (content : String) : List String :=
  composeGo (splitNl content.data) false none []

/-- The claim, phase 3: collect every subsequent key at exactly the service
indent (trailing colon stripped) until indentation returns to zero. -/
def claimKeys (si : Nat) : List (List Char) → List String → List String
  | [], acc => acc
  | line :: rest, acc =>
    let trimmed := trimL line
    if skipLine trimmed then claimKeys si rest acc
    else if indentOf line = 0 then acc
    else if indentOf line = si && endsColon trimmed then
      let nm := serviceName trimmed
      claimKeys si rest (if nm.isEmpty then acc else acc ++ [⟨nm⟩])
    else claimKeys si rest acc

/-- The claim, phase 2: the indentation of the first child key becomes the
service indent (and that key is the first service); indentation returning to
zero before any child ends the extraction; blank and comment lines are
skipped. -/
def claimChildScan : List (List Char) → List String
  | [] => []
  | line :: rest =>
    let trimmed := trimL line
    if skipLine trimmed then claimChildScan rest
    else if indentOf line = 0 then []
    else if endsColon trimmed then
      let nm := serviceName trimmed
      claimKeys (indentOf line) rest (if nm.isEmpty then [] else [⟨nm⟩])
    else claimChildScan rest

/-- The extraction procedure exactly as the claim words it (phase 1): locate
the top-level `services:` key — a line whose trimmed content is `services:`
at zero indentation. -/
def claimSeek : List (List Char) → List String
  | [] => []
  | line :: rest =>
    let trimmed := trimL line
    if skipLine trimmed then claimSeek rest
    else if trimmed = "services:".data && indentOf line == 0 then claimChildScan rest
    else claimSeek rest

/-- The service extractor as C9 describes it, end to end. -/
def claimComposeServices (content : String) : List String :=
  claimSeek (splitNl content.data)

mutual

/-- Amended description, child phase: after a `services:` line, zero-indent
lines do not end the scan; the first line with positive indentation ending in
a colon fixes the service indent and is the first collected service; a later
line reading exactly `services:` restarts this phase. -/
def amendChild : List (List Char) → List String → List String
  | [], acc => acc
  | line :: rest, acc =>
    let trimmed := trimL line
    if skipLine trimmed then amendChild rest acc
    else if trimmed = "services:".data then amendChild rest acc
    else if endsColon trimmed && decide (0 < indentOf line) then
      let nm := serviceName trimmed
      amendCollect (indentOf line) rest (if nm.isEmpty then acc else acc ++ [⟨nm⟩])
    else amendChild rest acc

/-- Amended description, collection phase: keys at exactly the service indent
(trailing colons stripped, then trimmed; empty names dropped) are collected
in document order until a zero-indent line ends the extraction; a line
reading exactly `services:` resets to the child phase, keeping what was
collected. -/
def amendCollect (si : Nat) : List (List Char) → List String → List String
  | [], acc => acc
  | line :: rest, acc =>
    let trimmed := trimL line
    if skipLine trimmed then amendCollect si rest acc
    else if trimmed = "services:".data then amendChild rest acc
    else if indentOf line = 0 then acc
    else if indentOf line = si && endsColon trimmed then
      let nm := serviceName trimmed
      amendCollect si rest (if nm.isEmpty then acc else acc ++ [⟨nm⟩])
    else amendCollect si rest acc

end

/-- Amended description, seek phase: the extraction starts at the first line
whose trimmed content is exactly `services:`, whatever its indentation. -/
def amendSeek : List (List Char) → List String → List String
  | [], acc => acc
  | line :: rest, acc =>
    let trimmed := trimL line
    if skipLine trimmed then amendSeek rest acc
    else if trimmed = "services:".data then amendChild rest acc
    else amendSeek rest acc

/-- Escape one character of a TOML basic string. -/
def escChar (c : Char) : List Char :=
  if c = '\\' then ['\\', '\\']
  else if c = '"' then ['\\', '"']
  else if c = '\n' then ['\\', 'n']
  else if c = '\t' then ['\\', 't']
  else if c = '\r' then ['\\', 'r']
  else [c]

/-- Escape a character sequence for a TOML basic string. -/
def escapeL : List Char → List Char
  | [] => []
  | c :: t => escChar c ++ escapeL t

/-- A quoted, escaped TOML basic string. -/
def quoteStr (s : String) : List Char := '"' :: (escapeL s.data ++ ['"'])

/-- Decode one escape character. -/
def decodeEsc (c : Char) : Option Char :=
  if c = '\\' then some '\\'
  else if c = '"' then some '"'
  else if c = 'n' then some '\n'
  else if c = 't' then some '\t'
  else if c = 'r' then some '\r'
  else none

/-- Scan the inside of a quoted string up to the closing quote, undoing
escapes; returns the decoded content and the remaining input. -/
def scanQ : Nat → List Char → Option (List Char × List Char)
  | _, [] => none
  | 0, c :: rest => if c = '"' then some ([], rest) else none
  | f + 1, c :: rest =>
    if c = '"' then some ([], rest)
    else if c = '\\' then
      match rest with
      | [] => none
      | e :: rest2 =>
        match decodeEsc e, scanQ f rest2 with
        | some d, some (s, r) => some (d :: s, r)
        | _, _ => none
    else
      match scanQ f rest with
      | some (s, r) => some (c :: s, r)
      | none => none

/-- Parse a leading quoted basic string, returning content and remainder. -/
def parseQuoted (fuel : Nat) (cs : List Char) : Option (List Char × List Char) :=
  match cs with
  | '"' :: rest => scanQ fuel rest
  | _ => none

/-- Strip an expected leading segment, returning the remainder. -/
def stripPfx : List Char → List Char → Option (List Char)
  | [], cs => some cs
  | _ :: _, [] => none
  | p :: ps, c :: cs => if c = p then stripPfx ps cs else none

/-- Render `key = "value"`. -/
def renderKV (key : List Char) (v : String) : List Char :=
  key ++ ' ' :: '=' :: ' ' :: quoteStr v

/-- Parse `key = "value"` for a fixed bare key, requiring the line to end at
the closing quote. -/
def parseKV (fuel : Nat) (key : List Char) (line : List Char) : Option String :=
  match stripPfx (key ++ [' ', '=', ' ']) line with
  | none => none
  | some r =>
    match parseQuoted fuel r with
    | some (s, []) => some ⟨s⟩
    | _ => none

/-- Render the elements of an inline string array, separated by ", ". -/
def renderStrList : List String → List Char
  | [] => []
  | [s] => quoteStr s
  | s :: rest => quoteStr s ++ ',' :: ' ' :: renderStrList rest

/-- Parse the elements of an inline string array up to the closing bracket. -/
def parseStrList : Nat → List Char → Option (List String)
  | 0, cs => if cs = [']'] then some [] else none
  | f + 1, cs =>
    if cs = [']'] then some []
    else
      match parseQuoted (f + 1) cs with
      | none => none
      | some (s, r) =>
        match r with
        | [']'] => some [⟨s⟩]
        | ',' :: ' ' :: more =>
          match parseStrList f more with
          | some ss => some (⟨s⟩ :: ss)
          | none => none
        | _ => none

/-- Render one table entry `"key" = "value"` (keys serialized quoted). -/
def renderTableKV (kv : String × String) : List Char :=
  quoteStr kv.1 ++ ' ' :: '=' :: ' ' :: quoteStr kv.2

/-- Parse one table entry `"key" = "value"`. -/
def parseTableKV (fuel : Nat) (line : List Char) : Option (String × String) :=
  match parseQuoted fuel line with
  | none => none
  | some (k, r) =>
    match stripPfx [' ', '=', ' '] r with
    | none => none
    | some r2 =>
      match parseQuoted fuel r2 with
      | some (v, []) => some (⟨k⟩, ⟨v⟩)
      | _ => none

/-- Parse table entries until the next header line (starting with a square
bracket) or the end of the document. -/
def parseTableLines : Nat → List (List Char) → Option (List (String × String) × List (List Char))
  | _, [] => some ([], [])
  | 0, line :: rest => if line.head? = some '[' then some ([], line :: rest) else none
  | f + 1, line :: rest =>
    if line.head? = some '[' then some ([], line :: rest)
    else
      match parseTableKV line.length line, parseTableLines f rest with
      | some kv, some (tbl, rem) => some (kv :: tbl, rem)
      | _, _ => none

/-- Parse the `services = [...]` line. -/
def parseServicesLine (line : List Char) : Option (List String) :=
  match stripPfx "services = [".data line with
  | none => none
  | some r => parseStrList r.length r

/-- Render the `services = [...]` line. -/
def renderServices (ss : List String) : List Char :=
  "services = [".data ++ (renderStrList ss ++ [']'])

/-- Parse a table header line followed by its entries. -/
def parseHeaderTable (hdr : List Char) :
    List (List Char) → Option (List (String × String) × List (List Char))
  | [] => none
  | l :: rest => if l = hdr then parseTableLines rest.length rest else none

/-- The fixed header and key lines of the serialized document. -/
def projectHeader : List Char := "[[project]]".data

/-- The `[project.env]` table header line. -/
def envHeader : List Char := "[project.env]".data

/-- The `[project.commands]` table header line. -/
def cmdsHeader : List Char := "[project.commands]".data

/-- The bare key of the optional timestamp line. -/
def lastUsedKey : List Char := "last_used".data

/-- Parse the optional `last_used = "…"` line: consumed if it parses as that
key, otherwise the line is left for the next parser. -/
def parseOptLastUsed : List (List Char) → Option String × List (List Char)
  | [] => (none, [])
  | l :: rest =>
    match parseKV l.length lastUsedKey l with
    | some v => (some v, rest)
    | none => (none, l :: rest)

/-- The serialized lines of one project after its `[[project]]` header. -/
def projectBody (p : Project) : List (List Char) :=
  renderKV "name".data p.name ::
    renderKV "path".data p.path ::
      renderKV "type".data p.project_type ::
        renderServices p.services ::
          ((match p.last_used with
            | some v => [renderKV lastUsedKey v]
            | none => []) ++
            (envHeader ::
              (p.env.map renderTableKV ++
                (cmdsHeader :: p.commands.map renderTableKV))))

/-- The serialized lines of one project. -/
def projectLines (p : Project) : List (List Char) :=
  projectHeader :: projectBody p

/-- Parse one project body (after its `[[project]]` header line). -/
def parseOneProject (lines : List (List Char)) : Option (Project × List (List Char)) :=
  match lines with
  | lname :: lpath :: ltype :: lserv :: rest2 =>
    match parseKV lname.length "name".data lname, parseKV lpath.length "path".data lpath,
        parseKV ltype.length "type".data ltype, parseServicesLine lserv with
    | some nm, some pth, some ty, some svcs =>
      let lu := parseOptLastUsed rest2
      match parseHeaderTable envHeader lu.2 with
      | some (env, rest5) =>
        match parseHeaderTable cmdsHeader rest5 with
        | some (cmds, rest7) =>
          some ({ name := nm, path := pth, project_type := ty, services := svcs,
                  env := env, commands := cmds, last_used := lu.1 }, rest7)
        | none => none
      | none => none
    | _, _, _, _ => none
  | _ => none

/-- Parse the sequence of `[[project]]` tables. -/
def parseProjects : Nat → List (List Char) → Option (List Project)
  | _, [] => some []
  | 0, _ :: _ => none
  | f + 1, line :: rest =>
    if line = projectHeader then
      match parseOneProject rest with
      | some (p, rem) =>
        match parseProjects f rem with
        | some ps => some (p :: ps)
        | none => none
      | none => none
    else none

/-- Join physical lines with newline characters (the rendered document). -/
def intercalateNl : List (List Char) → List Char
  | [] => []
  | [l] => l
  | l :: l2 :: t => l ++ '\n' :: intercalateNl (l2 :: t)

/-- save_projects (src/config.rs 111–121): wrap the sequence in a
ProjectsFile document and serialize it — the whole registry is rewritten on
every save.  The serialized text is the modelled toml rendering above. -/
def save_projects (projects : List Project) : String :=
  ⟨intercalateNl ((projects.map projectLines).join)⟩

/-- load_projects (src/config.rs 99–109): a missing file is the empty
registry (not an error); an existing file is parsed, a malformed one is a
ParseError.  Blank lines of the document are insignificant. -/
def load_projects : Option String → Except String (List Project)
  | none => Except.ok []
  | some content =>
    match parseProjects ((splitNl content.data).filter (fun l => !l.isEmpty)).length
        ((splitNl content.data).filter (fun l => !l.isEmpty)) with
    | some ps => Except.ok ps
    | none => Except.error "Failed to parse projects.toml"

/-- C1: find_project performs tiered case-insensitive matching: the first
exact (case-insensitive) name match wins; otherwise a prefix tier returns its
candidate only when it is unique; otherwise a substring tier returns its
candidate only when it is unique; otherwise no match.  A tier with several
candidates never yields a result. -/
theorem find_project_tiered (ps : List Project) (q : String) :
    find_project ps q =
      match ps.find? (fun p => lowerL p.name.data == lowerL q.data) with
      | some p => some p
      | none =>
        match ps.filter (fun p => startsWithL (lowerL p.name.data) (lowerL q.data)) with
        | [p] => some p
        | _ =>
          match ps.filter (fun p => containsL (lowerL p.name.data) (lowerL q.data)) with
          | [p] => some p
          | _ => none := by
  unfold find_project
  cases hf : ps.find? (fun p => lowerL p.name.data == lowerL q.data) with
  | some p => simp [hf]
  | none =>
    simp only [hf]
    rcases hpre : ps.filter (fun p => startsWithL (lowerL p.name.data) (lowerL q.data)) with
      _ | ⟨a, _ | ⟨b, t⟩⟩
    · simp only [hpre, List.length_nil]
      rcases hsub : ps.filter (fun p => containsL (lowerL p.name.data) (lowerL q.data)) with
        _ | ⟨c, _ | ⟨d, u⟩⟩ <;> simp [hsub]
    · simp [hpre]
    · simp only [hpre, List.length_cons]
      have hne : ¬ t.length + 1 + 1 = 1 := by omega
      simp only [if_neg hne]
      rcases hsub : ps.filter (fun p => containsL (lowerL p.name.data) (lowerL q.data)) with
        _ | ⟨c, _ | ⟨d, u⟩⟩ <;> simp [hsub]

lemma lowerL_eq_nil_iff (l : List Char) : lowerL l = [] ↔ l = [] := by
  unfold lowerL
  constructor
  · intro h
    cases l with
    | nil => rfl
    | cons c t => simp at h
  · intro h
    subst h
    rfl

lemma string_ne_empty_data {s : String} (h : s ≠ "") : s.data ≠ [] := by
  intro hd
  apply h
  cases s with
  | mk data => cases hd; rfl

lemma startsWithL_nil (s : List Char) : startsWithL s [] = true := by
  unfold startsWithL
  cases s <;> rfl

lemma containsL_nil (s : List Char) : containsL s [] = true := by
  cases s with
  | nil => rfl
  | cons c t => simp [containsL, List.isPrefixOf]

/-- C10: on the empty query, over a registry of non-empty names, the exact
tier finds nothing, and both the prefix tier and the substring tier match
every record; so find_project returns the sole project of a one-project
registry and no-match otherwise. -/
theorem find_project_empty_query (ps : List Project) (h : ∀ p ∈ ps, p.name ≠ "") :
    find_project ps "" = if ps.length = 1 then ps.head? else none := by
  unfold find_project
  have hdata : ("" : String).data = [] := rfl
  have hq : lowerL ("" : String).data = [] := by rw [hdata]; rfl
  have hex : ps.find? (fun p => lowerL p.name.data == lowerL ("" : String).data) = none := by
    rw [List.find?_eq_none]
    intro p hp
    simp only [hq, beq_iff_eq, lowerL_eq_nil_iff]
    exact string_ne_empty_data (h p hp)
  simp only [hq] at hex ⊢
  rw [hex]
  have hpre : ps.filter (fun p => startsWithL (lowerL p.name.data) []) = ps := by
    rw [List.filter_eq_self]
    intro p _
    exact startsWithL_nil _
  have hsub : ps.filter (fun p => containsL (lowerL p.name.data) []) = ps := by
    rw [List.filter_eq_self]
    intro p _
    exact containsL_nil _
  rw [hpre, hsub]
  by_cases h1 : ps.length = 1
  · rcases ps with _ | ⟨a, _ | ⟨b, t⟩⟩ <;> simp_all
  · simp [h1]

/-- C10 witness: on a concrete two-project registry with non-empty names the
empty query resolves to no-match. -/
theorem find_project_empty_query_witness :
    (∀ p ∈ [sampleProject "alpha", sampleProject "beta"], p.name ≠ "") ∧
      find_project [sampleProject "alpha", sampleProject "beta"] "" = none := by
  refine ⟨by decide, ?_⟩
  have h := find_project_empty_query [sampleProject "alpha", sampleProject "beta"] (by decide)
  simpa using h

/-- C2: the lookup inlined in cmd_switch diverges from find_project — on the
registry {app-one, app-two} the query "app" is an ambiguous prefix query, so
find_project fails closed, but cmd_switch silently resolves it to position 0
(app-one), the first record matching any of exact/prefix/substring. -/
theorem switch_lookup_divergence :
    switch_lookup [sampleProject "app-one", sampleProject "app-two"] "app" = some 0 ∧
      find_project [sampleProject "app-one", sampleProject "app-two"] "app" = none := by
  constructor <;> rfl

/-- C4 counterexample: on a registry holding two case-insensitive variants of
the same name, removal deletes both entries, not exactly one. -/
theorem cmd_remove_removes_two :
    cmd_remove [sampleProject "Foo", sampleProject "foo"] "FOO" = Except.ok [] ∧
      ([] : List Project).length ≠
        [sampleProject "Foo", sampleProject "foo"].length - 1 := by
  constructor
  · rfl
  · decide

lemma filter_keep_of_no_match (ps : List Project) (name : String)
    (h : ∀ p ∈ ps, lowerStr p.name ≠ lowerStr name) :
    ps.filter (fun p => !(lowerStr p.name == lowerStr name)) = ps := by
  rw [List.filter_eq_self]
  intro p hp
  simp [h p hp]

lemma filter_keep_eraseIdx (ps : List Project) (name : String)
    (hU : ps.Pairwise (fun a b => lowerStr a.name ≠ lowerStr b.name)) :
    ∀ i, (hi : i < ps.length) → lowerStr (ps.get ⟨i, hi⟩).name = lowerStr name →
      ps.filter (fun p => !(lowerStr p.name == lowerStr name)) = ps.eraseIdx i := by
  induction ps with
  | nil => intro i hi; cases hi
  | cons a t ih =>
    rcases List.pairwise_cons.1 hU with ⟨ha, ht⟩
    intro i hi hmatch
    cases i with
    | zero =>
      have hmz : lowerStr a.name = lowerStr name := hmatch
      have hrest : ∀ p ∈ t, lowerStr p.name ≠ lowerStr name := by
        intro p hp hcontra
        exact ha p hp (by rw [hmz, hcontra])
      have hbeq : (lowerStr a.name == lowerStr name) = true := by simp [hmz]
      simp only [List.filter_cons, hbeq, Bool.not_true, List.eraseIdx_cons_zero]
      simpa using filter_keep_of_no_match t name hrest
    | succ j =>
      have hj : j < t.length := by simpa using hi
      have hmj : lowerStr (t.get ⟨j, hj⟩).name = lowerStr name := hmatch
      have hanm : lowerStr a.name ≠ lowerStr name := by
        intro hcontra
        exact ha (t.get ⟨j, hj⟩) (List.get_mem t j hj) (by rw [hcontra, hmj])
      have hbeq : (lowerStr a.name == lowerStr name) = false := by
        simp [hanm]
      simp only [List.filter_cons, hbeq, Bool.not_false, if_true, List.eraseIdx_cons_succ]
      rw [ih ht j hj hmj]

/-- C4 (amended): under the case-insensitive uniqueness invariant, cmd_remove
removes exactly the matching entry — the result is `ps.eraseIdx i` for the
matching position i, leaving every other entry and their order unchanged —
and fails with NotFound (saving nothing) when no entry matches. -/
theorem cmd_remove_unique (ps : List Project) (name : String)
    (hU : ps.Pairwise (fun a b => lowerStr a.name ≠ lowerStr b.name)) :
    ((∀ p ∈ ps, lowerStr p.name ≠ lowerStr name) →
        cmd_remove ps name = Except.error ("Project '" ++ name ++ "' not found.")) ∧
      ∀ i, (hi : i < ps.length) → lowerStr (ps.get ⟨i, hi⟩).name = lowerStr name →
        cmd_remove ps name = Except.ok (ps.eraseIdx i) := by
  constructor
  · intro hnone
    unfold cmd_remove
    rw [filter_keep_of_no_match ps name hnone]
    simp
  · intro i hi hmatch
    unfold cmd_remove
    rw [filter_keep_eraseIdx ps name hU i hi hmatch]
    have hlen : (ps.eraseIdx i).length = ps.length - 1 := by
      rw [List.length_eraseIdx]
      simp [hi]
    have hne : ¬ (ps.eraseIdx i).length = ps.length := by omega
    simp [hne]

/-- C4 witness: removing "ALPHA" from the two-project registry [Alpha, beta]
removes exactly the first entry and keeps beta. -/
theorem cmd_remove_unique_witness :
    cmd_remove [sampleProject "Alpha", sampleProject "beta"] "ALPHA" =
      Except.ok [sampleProject "beta"] := by
  have h := (cmd_remove_unique [sampleProject "Alpha", sampleProject "beta"] "ALPHA"
    (by decide)).2 0 (by decide) (by decide)
  simpa using h

/-- C5: a failing first project (missing directory) aborts the deps check
--all loop — the second project is never processed, contradicting the spec
that bulk iteration continues past per-project failures. -/
theorem deps_check_all_aborts :
    deps_check_all (fun s => s == "/existing")
        [sampleProjectAt "one" "/missing", sampleProjectAt "two" "/existing"] =
      (["one"], some "Project directory does not exist: /missing") ∧
      "two" ∉ (deps_check_all (fun s => s == "/existing")
        [sampleProjectAt "one" "/missing", sampleProjectAt "two" "/existing"]).1 := by
  constructor
  · rfl
  · decide

/-- C7 counterexample: a registry already holding "Foo" accepts the
case-insensitively equal name "foo" — the add succeeds and appends a second
entry, so the case-insensitive uniqueness invariant is not preserved. -/
theorem cmd_add_accepts_case_variant :
    lowerStr "Foo" = lowerStr "foo" ∧
      cmd_add [sampleProject "Foo"] "foo" "/p" "unknown" [] [] "t0" =
        Except.ok [sampleProject "Foo",
          { name := "foo", path := "/p", project_type := "unknown",
            services := [], env := [], commands := [], last_used := some "t0" }] := by
  constructor
  · rfl
  · rfl

/-- C7 (amended): cmd_add fails with InvalidInput — appending nothing —
exactly when some registered project has the identical (case-sensitive) name;
otherwise it appends the new record at the end; consequently case-sensitive
name uniqueness is preserved, while a name differing only in case is
accepted. -/
theorem cmd_add_exact_duplicate (ps : List Project) (nm pathStr ty : String)
    (svcs : List String) (cmds : List (String × String)) (now : String) :
    ((∃ e, cmd_add ps nm pathStr ty svcs cmds now = Except.error e) ↔ ∃ p ∈ ps, p.name = nm) ∧
      ((∀ p ∈ ps, p.name ≠ nm) →
        cmd_add ps nm pathStr ty svcs cmds now =
          Except.ok (ps ++
            [{ name := nm, path := pathStr, project_type := ty,
               services := svcs, env := [], commands := cmds, last_used := some now }])) ∧
      (ps.Pairwise (fun a b => a.name ≠ b.name) →
        ∀ l, cmd_add ps nm pathStr ty svcs cmds now = Except.ok l →
          l.Pairwise (fun a b => a.name ≠ b.name)) := by
  refine ⟨?_, ?_, ?_⟩
  · constructor
    · rintro ⟨e, he⟩
      unfold cmd_add at he
      by_cases hd : ps.any (fun p => p.name == nm)
      · rcases List.any_eq_true.1 hd with ⟨p, hp, hpe⟩
        exact ⟨p, hp, by simpa using hpe⟩
      · rw [if_neg hd] at he
        cases he
    · rintro ⟨p, hp, hpe⟩
      have hd : ps.any (fun p => p.name == nm) := by
        exact List.any_eq_true.2 ⟨p, hp, by simpa using hpe⟩
      exact ⟨_, by unfold cmd_add; rw [if_pos hd]⟩
  · intro hnone
    have hd : ¬ ps.any (fun p => p.name == nm) := by
      intro hc
      rcases List.any_eq_true.1 hc with ⟨p, hp, hpe⟩
      exact hnone p hp (by simpa using hpe)
    unfold cmd_add
    rw [if_neg hd]
    rfl
  · intro hP l hl
    unfold cmd_add at hl
    by_cases hd : ps.any (fun p => p.name == nm)
    · rw [if_pos hd] at hl
      cases hl
    · rw [if_neg hd] at hl
      have hnone : ∀ p ∈ ps, ¬ p.name = nm := by
        intro p hp hpe
        exact hd (List.any_eq_true.2 ⟨p, hp, by simpa using hpe⟩)
      cases hl
      rw [List.pairwise_append]
      refine ⟨hP, by simp, ?_⟩
      intro a haa b hb
      simp only [List.mem_singleton] at hb
      subst hb
      simpa using fun hc => hnone a haa (by simpa using hc)

/-- C7 witness: adding name "beta" to the registry [alpha] succeeds and
appends the new record. -/
theorem cmd_add_exact_duplicate_witness :
    cmd_add [sampleProject "alpha"] "beta" "/p" "unknown" [] [] "t0" =
      Except.ok [sampleProject "alpha",
        { name := "beta", path := "/p", project_type := "unknown",
          services := [], env := [], commands := [], last_used := some "t0" }] := by
  exact (cmd_add_exact_duplicate [sampleProject "alpha"] "beta" "/p" "unknown" [] [] "t0").2.1
    (by decide)

/-- C6 counterexample: a record produced by Project::new — exactly what the
add flow registers — carries a present last_used timestamp, not an absent
one. -/
theorem project_new_last_used_present :
    (Project.new "demo" "/srv/demo" "rust" "2025-01-01T00:00:00+00:00").last_used ≠ none := by
  decide

/-- C6 (amended): Project::new stamps last_used with the creation instant, so
the record the add flow appends is born with last_used = now; a later switch
overwrites it via touch.  last_used is absent only when the persisted file
lacks the field. -/
theorem project_new_last_used (name pathStr ty now : String) (p : Project) (now2 : String)
    (ps : List Project) (svcs : List String) (cmds : List (String × String)) :
    (Project.new name pathStr ty now).last_used = some now ∧
      (Project.touch p now2).last_used = some now2 ∧
      (∀ l, cmd_add ps name pathStr ty svcs cmds now = Except.ok l →
        l.getLast?.map (fun q => q.last_used) = some (some now)) := by
  refine ⟨rfl, rfl, ?_⟩
  intro l hl
  unfold cmd_add at hl
  by_cases hd : ps.any (fun p => p.name == name)
  · rw [if_pos hd] at hl
    cases hl
  · rw [if_neg hd] at hl
    cases hl
    rw [List.getLast?_concat]
    rfl

/-- C6 witness: concrete creation, touch, and add all leave the registered
instant in last_used. -/
theorem project_new_last_used_witness :
    (Project.new "demo" "/srv/demo" "rust" "t1").last_used = some "t1" ∧
      (Project.touch (sampleProject "demo") "t2").last_used = some "t2" ∧
      [Project.new "demo" "/srv/demo" "rust" "t1"].getLast?.map
        (fun q => q.last_used) = some (some "t1") := by
  have h := project_new_last_used "demo" "/srv/demo" "rust" "t1" (sampleProject "demo") "t2"
    [] [] []
  exact ⟨h.1, h.2.1, h.2.2 [Project.new "demo" "/srv/demo" "rust" "t1"] rfl⟩

/-- C8: for every nonnegative elapsed duration, last_used_ago renders exactly
the banded label the spec defines, and an absent last_used renders "never". -/
theorem last_used_ago_bands (secs : Int) (h : 0 ≤ secs) :
    last_used_ago (some secs) = specRecencyLabel secs ∧ last_used_ago none = "never" := by
  refine ⟨?_, rfl⟩
  have h60 : secs.tdiv 60 = secs / 60 := Int.tdiv_eq_ediv h (by norm_num)
  have h3600 : secs.tdiv 3600 = secs / 3600 := Int.tdiv_eq_ediv h (by norm_num)
  have h86400 : secs.tdiv 86400 = secs / 86400 := Int.tdiv_eq_ediv h (by norm_num)
  have h604800 : secs.tdiv 604800 = secs / 604800 := Int.tdiv_eq_ediv h (by norm_num)
  have hdpos : 0 ≤ secs / 86400 := Int.ediv_nonneg h (by norm_num)
  have h30 : (secs / 86400).tdiv 30 = secs / 86400 / 30 := Int.tdiv_eq_ediv hdpos (by norm_num)
  simp only [last_used_ago, specRecencyLabel, h60, h3600, h86400, h604800, h30]
  rcases lt_or_le secs 60 with hb | hb
  · rw [if_pos (show secs / 60 < 1 by omega), if_pos hb]
  · rcases lt_or_le secs 3600 with hc | hc
    · rw [if_neg (show ¬ secs / 60 < 1 by omega), if_pos (show secs / 60 < 60 by omega),
        if_neg (show ¬ secs < 60 by omega), if_pos hc]
    · rcases lt_or_le secs 86400 with hd | hd
      · rw [if_neg (show ¬ secs / 60 < 1 by omega), if_neg (show ¬ secs / 60 < 60 by omega),
          if_pos (show secs / 3600 < 24 by omega), if_neg (show ¬ secs < 60 by omega),
          if_neg (show ¬ secs < 3600 by omega), if_pos hd]
      · rcases lt_or_le secs 604800 with he | he
        · rw [if_neg (show ¬ secs / 60 < 1 by omega), if_neg (show ¬ secs / 60 < 60 by omega),
            if_neg (show ¬ secs / 3600 < 24 by omega), if_pos (show secs / 86400 < 7 by omega),
            if_neg (show ¬ secs < 60 by omega), if_neg (show ¬ secs < 3600 by omega),
            if_neg (show ¬ secs < 86400 by omega), if_pos he]
        · rcases lt_or_le secs 2419200 with hf | hf
          · rw [if_neg (show ¬ secs / 60 < 1 by omega), if_neg (show ¬ secs / 60 < 60 by omega),
              if_neg (show ¬ secs / 3600 < 24 by omega),
              if_neg (show ¬ secs / 86400 < 7 by omega),
              if_pos (show secs / 604800 < 4 by omega),
              if_neg (show ¬ secs < 60 by omega), if_neg (show ¬ secs < 3600 by omega),
              if_neg (show ¬ secs < 86400 by omega), if_neg (show ¬ secs < 604800 by omega),
              if_pos hf]
          · rw [if_neg (show ¬ secs / 60 < 1 by omega), if_neg (show ¬ secs / 60 < 60 by omega),
              if_neg (show ¬ secs / 3600 < 24 by omega),
              if_neg (show ¬ secs / 86400 < 7 by omega),
              if_neg (show ¬ secs / 604800 < 4 by omega),
              if_neg (show ¬ secs < 60 by omega), if_neg (show ¬ secs < 3600 by omega),
              if_neg (show ¬ secs < 86400 by omega), if_neg (show ¬ secs < 604800 by omega),
              if_neg (show ¬ secs < 2419200 by omega)]

/-- C8 witness: 90 seconds of elapsed time renders "1 min ago", 25 hours
(90000 seconds) renders "1 day ago", and an absent timestamp renders
"never". -/
theorem last_used_ago_bands_witness :
    last_used_ago (some 90) = "1 min ago" ∧ last_used_ago (some 90000) = "1 day ago" ∧
      last_used_ago none = "never" := by
  have h90 := last_used_ago_bands 90 (by norm_num)
  have h25 := last_used_ago_bands 90000 (by norm_num)
  refine ⟨?_, ?_, h90.2⟩
  · rw [h90.1]
    rfl
  · rw [h25.1]
    rfl

/-- C9 counterexample: on a document whose `services:` line is itself
indented (a child of another top-level key), the claimed procedure finds no
top-level `services:` key and yields nothing, but parse_compose_services
matches `services:` by trimmed content at any indentation and extracts
["api"]. -/
theorem parse_compose_services_claim_false :
    parse_compose_services "x:\n  services:\n    api:\n" = ["api"] ∧
      claimComposeServices "x:\n  services:\n    api:\n" = [] ∧
      parse_compose_services "x:\n  services:\n    api:\n" ≠
        claimComposeServices "x:\n  services:\n    api:\n" := by
  refine ⟨rfl, rfl, ?_⟩
  decide

lemma composeGo_phases (lines : List (List Char)) :
    ∀ acc, composeGo lines false none acc = amendSeek lines acc ∧
      composeGo lines true none acc = amendChild lines acc ∧
      ∀ si, composeGo lines true (some si) acc = amendCollect si lines acc := by
  induction lines with
  | nil => intro acc; exact ⟨rfl, rfl, fun _ => rfl⟩
  | cons line rest ih =>
    intro acc
    refine ⟨?_, ?_, ?_⟩
    · show composeGo (line :: rest) false none acc = amendSeek (line :: rest) acc
      simp only [composeGo, amendSeek]
      by_cases hs : skipLine (trimL line)
      · simp only [hs, if_true, (ih acc).1]
      · simp only [hs, if_false, Bool.false_eq_true]
        by_cases hsv : trimL line = "services:".data
        · simp only [hsv, if_true, (ih acc).2.1]
        · simp only [hsv, if_false, (ih acc).1]
    · show composeGo (line :: rest) true none acc = amendChild (line :: rest) acc
      simp only [composeGo, amendChild]
      by_cases hs : skipLine (trimL line)
      · simp only [hs, if_true, (ih acc).2.1]
      · simp only [hs, if_false, Bool.false_eq_true]
        by_cases hsv : trimL line = "services:".data
        · simp only [hsv, if_true, (ih acc).2.1]
        · simp only [hsv, if_false, if_true]
          by_cases hk : endsColon (trimL line) && decide (0 < indentOf line)
          · simp only [hk, if_true]
            by_cases hn : (serviceName (trimL line)).isEmpty
            · simp only [hn, if_true, (ih acc).2.2]
            · simp only [hn, if_false, Bool.false_eq_true,
                (ih (acc ++ [⟨serviceName (trimL line)⟩])).2.2]
          · simp only [hk, if_false, Bool.false_eq_true, (ih acc).2.1]
    · intro si
      show composeGo (line :: rest) true (some si) acc = amendCollect si (line :: rest) acc
      simp only [composeGo, amendCollect]
      by_cases hs : skipLine (trimL line)
      · simp only [hs, if_true, (ih acc).2.2]
      · simp only [hs, if_false, Bool.false_eq_true]
        by_cases hsv : trimL line = "services:".data
        · simp only [hsv, if_true, (ih acc).2.1]
        · simp only [hsv, if_false, if_true]
          by_cases hz : indentOf line = 0
          · simp only [hz, if_true]
          · simp only [hz, if_false, Bool.false_eq_true]
            by_cases hk : indentOf line = si && endsColon (trimL line)
            · simp only [hk, if_true]
              by_cases hn : (serviceName (trimL line)).isEmpty
              · simp only [hn, if_true, (ih acc).2.2]
              · simp only [hn, if_false, Bool.false_eq_true,
                  (ih (acc ++ [⟨serviceName (trimL line)⟩])).2.2]
            · simp only [hk, if_false, Bool.false_eq_true, (ih acc).2.2]

/-- C9 (amended): parse_compose_services implements the claimed extraction
with three deviations — `services:` is recognised by trimmed content at any
indentation, zero-indent lines before the first indented child key do not end
the scan, and a later `services:` line restarts the child scan — and on the
claim's concrete document (services: with two 2-space-indented keys api: and
db:, each with deeper-indented configuration) it yields exactly
["api", "db"]. -/
theorem parse_compose_services_amended :
    (∀ content : String,
        parse_compose_services content = amendSeek (splitNl content.data) []) ∧
      parse_compose_services
          "services:\n  api:\n    build: .\n    ports:\n      - 8080:80\n  db:\n    image: postgres\n"
        = ["api", "db"] := by
  constructor
  · intro content
    exact (composeGo_phases (splitNl content.data) []).1
  · rfl

/-!
Registry persistence (src/config.rs 99–121).  save_projects wraps the
sequence in a `ProjectsFile { project }` document and serializes it with the
toml crate; load_projects parses it back, returning the empty sequence when
no file exists.  The toml codec is an external crate; it is modelled below
concretely for exactly this schema: one `[[project]]` table per record in
sequence order, the string fields as escaped basic strings, `services` as an
inline string array, the optional `last_used`, and the `env`/`commands`
tables with quoted keys.
-/

lemma escapeL_length_le (l : List Char) : l.length ≤ (escapeL l).length := by
  induction l with
  | nil => simp [escapeL]
  | cons c t ih =>
    simp only [escapeL, List.length_append, List.length_cons]
    have : 1 ≤ (escChar c).length := by
      unfold escChar
      split_ifs <;> simp
    omega

lemma escChar_no_nl (c : Char) : '\n' ∉ escChar c := by
  intro hc
  unfold escChar at hc
  split_ifs at hc with h1 h2 h3 h4 h5
  · exact absurd hc (by decide)
  · exact absurd hc (by decide)
  · exact absurd hc (by decide)
  · exact absurd hc (by decide)
  · exact absurd hc (by decide)
  · exact h3 (List.mem_singleton.1 hc).symm

lemma escapeL_no_nl (l : List Char) : '\n' ∉ escapeL l := by
  induction l with
  | nil => simp [escapeL]
  | cons c t ih =>
    simp only [escapeL, List.mem_append]
    rintro (hc | ht)
    · exact escChar_no_nl c hc
    · exact ih ht

lemma scanQ_quote (fuel : Nat) (rest : List Char) :
    scanQ fuel ('"' :: rest) = some ([], rest) := by
  cases fuel with
  | zero => simp [scanQ]
  | succ f => simp [scanQ]

lemma scanQ_escape (s : List Char) :
    ∀ (fuel : Nat) (rest : List Char), s.length ≤ fuel →
      scanQ fuel (escapeL s ++ '"' :: rest) = some (s, rest) := by
  induction s with
  | nil =>
    intro fuel rest _
    simp only [escapeL, List.nil_append]
    exact scanQ_quote fuel rest
  | cons c t ih =>
    intro fuel rest hf
    have hfuel : ∃ f, fuel = f + 1 := by
      cases fuel with
      | zero => simp at hf
      | succ f => exact ⟨f, rfl⟩
    obtain ⟨f, rfl⟩ := hfuel
    have hft : t.length ≤ f := by
      simp only [List.length_cons] at hf
      omega
    by_cases h1 : c = '\\'
    · subst h1
      simp [escapeL, escChar, scanQ, decodeEsc, ih f rest hft]
    · by_cases h2 : c = '"'
      · subst h2
        simp [escapeL, escChar, scanQ, decodeEsc, ih f rest hft]
      · by_cases h3 : c = '\n'
        · subst h3
          simp [escapeL, escChar, scanQ, decodeEsc, ih f rest hft]
        · by_cases h4 : c = '\t'
          · subst h4
            simp [escapeL, escChar, scanQ, decodeEsc, ih f rest hft]
          · by_cases h5 : c = '\r'
            · subst h5
              simp [escapeL, escChar, scanQ, decodeEsc, ih f rest hft]
            · simp only [escapeL, escChar, if_neg h1, if_neg h2, if_neg h3, if_neg h4,
                if_neg h5, List.singleton_append, List.cons_append]
              simp only [scanQ, if_neg h2, if_neg h1, List.nil_append, ih f rest hft]

lemma parseQuoted_quote (s : String) (fuel : Nat) (rest : List Char)
    (hf : s.data.length ≤ fuel) :
    parseQuoted fuel (quoteStr s ++ rest) = some (s.data, rest) := by
  unfold parseQuoted quoteStr
  simp only [List.cons_append, List.append_assoc, List.singleton_append]
  exact scanQ_escape s.data fuel rest hf

lemma stripPfx_append (l r : List Char) : stripPfx l (l ++ r) = some r := by
  induction l with
  | nil => rfl
  | cons p ps ih => simp [stripPfx, ih]

lemma parseKV_render (key : List Char) (v : String) (fuel : Nat)
    (hf : v.data.length ≤ fuel) :
    parseKV fuel key (renderKV key v) = some v := by
  unfold parseKV renderKV
  have harr : key ++ ' ' :: '=' :: ' ' :: quoteStr v =
      (key ++ [' ', '=', ' ']) ++ (quoteStr v ++ []) := by
    simp
  rw [harr, stripPfx_append]
  have hq := parseQuoted_quote v fuel [] hf
  simp only [hq]

lemma parseKV_bracket_none (fuel : Nat) (key : List Char) (line : List Char)
    (hk : ∃ k ks, key = k :: ks ∧ k ≠ '[') (hl : line.head? = some '[') :
    parseKV fuel key line = none := by
  obtain ⟨k, ks, rfl, hkne⟩ := hk
  cases line with
  | nil => simp at hl
  | cons c cs =>
    have hc : c = '[' := by simpa using hl
    subst hc
    unfold parseKV
    have hstrip : stripPfx ((k :: ks) ++ [' ', '=', ' ']) ('[' :: cs) = none := by
      simp only [List.cons_append, stripPfx]
      rw [if_neg (show ¬ ('[' = k) from fun h => hkne (Eq.symm h))]
    rw [hstrip]

lemma quoteStr_length_pos (s : String) : 0 < (quoteStr s).length := by
  simp [quoteStr]

lemma quoteStr_ne_bracket (s : String) (r : List Char) : quoteStr s ++ r ≠ [']'] := by
  intro h
  have := congrArg List.head? h
  simp [quoteStr] at this

lemma parseStrList_render (ss : List String) :
    ∀ fuel, (renderStrList ss ++ [']']).length ≤ fuel →
      parseStrList fuel (renderStrList ss ++ [']']) = some ss := by
  induction ss with
  | nil =>
    intro fuel _
    cases fuel <;> simp [parseStrList, renderStrList]
  | cons s rest ih =>
    intro fuel hf
    have hq2 : 2 ≤ (quoteStr s).length := by
      simp [quoteStr]
    have hsf : s.data.length ≤ (quoteStr s).length := by
      have := escapeL_length_le s.data
      simp only [quoteStr, List.length_cons, List.length_append]
      omega
    have hfuel : ∃ f, fuel = f + 1 := by
      cases fuel with
      | zero =>
        exfalso
        simp only [List.length_append, List.length_cons, Nat.le_zero] at hf
        omega
      | succ f => exact ⟨f, rfl⟩
    obtain ⟨f, rfl⟩ := hfuel
    cases rest with
    | nil =>
      simp only [renderStrList, parseStrList]
      rw [if_neg (quoteStr_ne_bracket s [']'])]
      rw [parseQuoted_quote s (f + 1) [']'] (by
        simp only [renderStrList, List.length_append, List.length_cons] at hf
        omega)]
      simp
    | cons s2 t =>
      have harr : renderStrList (s :: s2 :: t) ++ [']'] =
          quoteStr s ++ (',' :: ' ' :: (renderStrList (s2 :: t) ++ [']'])) := by
        simp [renderStrList]
      rw [harr]
      simp only [parseStrList]
      rw [if_neg (quoteStr_ne_bracket s _)]
      rw [parseQuoted_quote s (f + 1) (',' :: ' ' :: (renderStrList (s2 :: t) ++ [']'])) (by
        rw [harr] at hf
        simp only [List.length_append, List.length_cons] at hf
        omega)]
      have hrec : parseStrList f (renderStrList (s2 :: t) ++ [']']) = some (s2 :: t) := by
        apply ih
        rw [harr] at hf
        simp only [List.length_append, List.length_cons] at hf ⊢
        omega
      simp [hrec]

lemma parseTableKV_render (kv : String × String) (fuel : Nat)
    (hf1 : kv.1.data.length ≤ fuel) (hf2 : kv.2.data.length ≤ fuel) :
    parseTableKV fuel (renderTableKV kv) = some kv := by
  unfold parseTableKV renderTableKV
  have harr : quoteStr kv.1 ++ ' ' :: '=' :: ' ' :: quoteStr kv.2 =
      quoteStr kv.1 ++ ([' ', '=', ' '] ++ (quoteStr kv.2 ++ [])) := by
    simp
  rw [harr, parseQuoted_quote kv.1 fuel _ hf1]
  simp only [stripPfx_append]
  rw [parseQuoted_quote kv.2 fuel [] hf2]

lemma renderTableKV_head (kv : String × String) :
    (renderTableKV kv).head? = some '"' := by
  simp [renderTableKV, quoteStr]

lemma renderTableKV_length (kv : String × String) :
    kv.1.data.length ≤ (renderTableKV kv).length ∧
      kv.2.data.length ≤ (renderTableKV kv).length := by
  have h1 := escapeL_length_le kv.1.data
  have h2 := escapeL_length_le kv.2.data
  simp only [renderTableKV, quoteStr, List.length_append, List.length_cons]
  omega

lemma parseTableLines_render (kvs : List (String × String)) :
    ∀ fuel rem, kvs.length ≤ fuel →
      (rem = [] ∨ ∃ l r, rem = l :: r ∧ l.head? = some '[') →
      parseTableLines fuel (kvs.map renderTableKV ++ rem) = some (kvs, rem) := by
  induction kvs with
  | nil =>
    intro fuel rem _ hrem
    rcases hrem with rfl | ⟨l, r, rfl, hl⟩
    · cases fuel <;> rfl
    · cases fuel <;> simp [parseTableLines, hl]
  | cons kv t ih =>
    intro fuel rem hfuel hrem
    have hf : ∃ f, fuel = f + 1 := by
      cases fuel with
      | zero => simp at hfuel
      | succ f => exact ⟨f, rfl⟩
    obtain ⟨f, rfl⟩ := hf
    simp only [List.map_cons, List.cons_append, parseTableLines]
    rw [if_neg (by rw [renderTableKV_head]; decide)]
    have hkv := parseTableKV_render kv (renderTableKV kv).length
      (renderTableKV_length kv).1 (renderTableKV_length kv).2
    simp only [List.append_eq]
    rw [hkv, ih f rem (by simpa using hfuel) hrem]

lemma parseServicesLine_render (ss : List String) :
    parseServicesLine (renderServices ss) = some ss := by
  unfold parseServicesLine renderServices
  rw [stripPfx_append]
  exact parseStrList_render ss _ le_rfl

lemma parseHeaderTable_render (hdr : List Char) (kvs : List (String × String))
    (rem : List (List Char))
    (hrem : rem = [] ∨ ∃ l r, rem = l :: r ∧ l.head? = some '[') :
    parseHeaderTable hdr (hdr :: (kvs.map renderTableKV ++ rem)) = some (kvs, rem) := by
  simp only [parseHeaderTable]
  rw [if_pos trivial]
  apply parseTableLines_render kvs _ rem _ hrem
  simp

lemma renderKV_length (key : List Char) (v : String) :
    v.data.length ≤ (renderKV key v).length := by
  have := escapeL_length_le v.data
  simp only [renderKV, quoteStr, List.length_append, List.length_cons]
  omega

lemma parseOptLastUsed_some (v : String) (rest : List (List Char)) :
    parseOptLastUsed (renderKV lastUsedKey v :: rest) = (some v, rest) := by
  simp only [parseOptLastUsed]
  rw [parseKV_render lastUsedKey v _ (renderKV_length _ v)]

lemma parseOptLastUsed_none (l : List Char) (rest : List (List Char))
    (hl : l.head? = some '[') :
    parseOptLastUsed (l :: rest) = (none, l :: rest) := by
  simp only [parseOptLastUsed]
  rw [parseKV_bracket_none l.length lastUsedKey l ⟨'l', "ast_used".data, rfl, by decide⟩ hl]

lemma parseOneProject_render (p : Project) (rem : List (List Char))
    (hrem : rem = [] ∨ ∃ l r, rem = l :: r ∧ l.head? = some '[') :
    parseOneProject (projectBody p ++ rem) = some (p, rem) := by
  have hname := parseKV_render "name".data p.name
    (renderKV "name".data p.name).length (renderKV_length _ _)
  have hpath := parseKV_render "path".data p.path
    (renderKV "path".data p.path).length (renderKV_length _ _)
  have htype := parseKV_render "type".data p.project_type
    (renderKV "type".data p.project_type).length (renderKV_length _ _)
  have hserv := parseServicesLine_render p.services
  have hcmds := parseHeaderTable_render cmdsHeader p.commands rem hrem
  have henv := parseHeaderTable_render envHeader p.env
    (cmdsHeader :: (p.commands.map renderTableKV ++ rem))
    (Or.inr ⟨_, _, rfl, rfl⟩)
  cases hlu : p.last_used with
  | some v =>
    have hopt := parseOptLastUsed_some v
      (envHeader ::
        (p.env.map renderTableKV ++
          (cmdsHeader :: (p.commands.map renderTableKV ++ rem))))
    unfold projectBody parseOneProject
    simp only [hlu, List.cons_append, List.singleton_append, List.nil_append,
      List.append_assoc]
    simp only [hname, hpath, htype, hserv, hopt, henv, hcmds]
    rw [← hlu]
  | none =>
    have hopt := parseOptLastUsed_none envHeader
      (p.env.map renderTableKV ++
        (cmdsHeader :: (p.commands.map renderTableKV ++ rem))) rfl
    unfold projectBody parseOneProject
    simp only [hlu, List.nil_append, List.cons_append, List.append_assoc]
    simp only [hname, hpath, htype, hserv, hopt, henv, hcmds]
    rw [← hlu]

lemma projectLines_join_shape (ps : List Project) :
    (ps.map projectLines).join = [] ∨
      ∃ l r, (ps.map projectLines).join = l :: r ∧ l.head? = some '[' := by
  cases ps with
  | nil => left; rfl
  | cons p t =>
    right
    refine ⟨projectHeader, projectBody p ++ (t.map projectLines).join, ?_, rfl⟩
    simp [projectLines]

lemma parseProjects_render (ps : List Project) :
    ∀ fuel, ps.length ≤ fuel →
      parseProjects fuel ((ps.map projectLines).join) = some ps := by
  induction ps with
  | nil =>
    intro fuel _
    cases fuel <;> rfl
  | cons p t ih =>
    intro fuel hfuel
    have hf : ∃ f, fuel = f + 1 := by
      cases fuel with
      | zero => simp at hfuel
      | succ f => exact ⟨f, rfl⟩
    obtain ⟨f, rfl⟩ := hf
    have hjoin : ((p :: t).map projectLines).join =
        projectHeader :: (projectBody p ++ (t.map projectLines).join) := by
      simp [projectLines]
    rw [hjoin]
    simp only [parseProjects, if_pos rfl]
    rw [parseOneProject_render p _ (projectLines_join_shape t)]
    simp [ih f (by simpa using hfuel)]

lemma quoteStr_no_nl (s : String) : '\n' ∉ quoteStr s := by
  simp only [quoteStr, List.mem_cons, List.mem_append]
  rintro (h | h | h)
  · exact absurd h (by decide)
  · exact escapeL_no_nl s.data h
  · simp at h

lemma renderKV_wf (key : List Char) (v : String) (hk : '\n' ∉ key) :
    '\n' ∉ renderKV key v ∧ renderKV key v ≠ [] := by
  constructor
  · simp only [renderKV, List.mem_append, List.mem_cons]
    rintro (h | h | h | h)
    · exact hk h
    · exact absurd h (by decide)
    · exact absurd h (by decide)
    · rcases h with h | h
      · exact absurd h (by decide)
      · exact quoteStr_no_nl v h
  · intro h
    have := congrArg List.length h
    simp [renderKV] at this

lemma renderStrList_no_nl (ss : List String) : '\n' ∉ renderStrList ss := by
  induction ss with
  | nil => simp [renderStrList]
  | cons s rest ih =>
    cases rest with
    | nil => exact quoteStr_no_nl s
    | cons s2 t =>
      simp only [renderStrList, List.mem_append, List.mem_cons]
      rintro (h | h | h | h)
      · exact quoteStr_no_nl s h
      · exact absurd h (by decide)
      · exact absurd h (by decide)
      · exact ih (by simpa [renderStrList] using h)

lemma renderServices_wf (ss : List String) :
    '\n' ∉ renderServices ss ∧ renderServices ss ≠ [] := by
  constructor
  · intro hmem
    rcases List.mem_append.1 hmem with h | h
    · exact absurd h (by decide)
    · rcases List.mem_append.1 h with h2 | h2
      · exact renderStrList_no_nl ss h2
      · exact absurd h2 (by decide)
  · intro h
    have := congrArg List.length h
    simp [renderServices] at this

lemma renderTableKV_wf (kv : String × String) :
    '\n' ∉ renderTableKV kv ∧ renderTableKV kv ≠ [] := by
  constructor
  · simp only [renderTableKV, List.mem_append, List.mem_cons]
    rintro (h | h | h | h)
    · exact quoteStr_no_nl kv.1 h
    · exact absurd h (by decide)
    · exact absurd h (by decide)
    · rcases h with h | h
      · exact absurd h (by decide)
      · exact quoteStr_no_nl kv.2 h
  · intro h
    have := congrArg List.length h
    simp [renderTableKV, quoteStr] at this

lemma projectLines_wf (p : Project) : ∀ l ∈ projectLines p, '\n' ∉ l ∧ l ≠ [] := by
  intro l hl
  simp only [projectLines, projectBody, List.mem_cons] at hl
  rcases hl with rfl | rfl | rfl | rfl | rfl | hl
  · exact ⟨by decide, by decide⟩
  · exact renderKV_wf _ _ (by decide)
  · exact renderKV_wf _ _ (by decide)
  · exact renderKV_wf _ _ (by decide)
  · exact renderServices_wf _
  · rw [List.mem_append] at hl
    rcases hl with hlu | htail
    · cases hu : p.last_used with
      | some v =>
        rw [hu] at hlu
        simp only [List.mem_singleton] at hlu
        subst hlu
        exact renderKV_wf _ _ (by decide)
      | none =>
        rw [hu] at hlu
        simp at hlu
    · simp only [List.mem_cons, List.mem_append] at htail
      rcases htail with rfl | (henv | (rfl | hcmd))
      · exact ⟨by decide, by decide⟩
      · obtain ⟨kv, _, rfl⟩ := List.mem_map.1 henv
        exact renderTableKV_wf kv
      · exact ⟨by decide, by decide⟩
      · obtain ⟨kv, _, rfl⟩ := List.mem_map.1 hcmd
        exact renderTableKV_wf kv

lemma join_projectLines_wf (ps : List Project) :
    ∀ l ∈ (ps.map projectLines).join, '\n' ∉ l ∧ l ≠ [] := by
  intro l hl
  rw [List.mem_join] at hl
  obtain ⟨s, hs, hls⟩ := hl
  obtain ⟨p, _, rfl⟩ := List.mem_map.1 hs
  exact projectLines_wf p l hls

lemma splitNl_ne_nil (cs : List Char) : splitNl cs ≠ [] := by
  induction cs with
  | nil => simp [splitNl]
  | cons c rest ih =>
    simp only [splitNl]
    rcases h : splitNl rest with _ | ⟨hh, tt⟩
    · exact absurd h ih
    · simp only [h]
      by_cases hc : c = '\n'
      · simp [hc]
      · simp [hc]

lemma splitNl_append (l : List Char) :
    '\n' ∉ l → ∀ cs h t, splitNl cs = h :: t → splitNl (l ++ cs) = (l ++ h) :: t := by
  induction l with
  | nil =>
    intro _ cs h t hcs
    simpa using hcs
  | cons c l2 ih =>
    intro hl cs h t hcs
    have hc : ¬ c = '\n' := by
      intro hc
      exact hl (by simp [hc])
    have hl2 : '\n' ∉ l2 := fun hx => hl (List.mem_cons_of_mem c hx)
    simp only [List.cons_append, splitNl, List.append_eq]
    simp only [ih hl2 cs h t hcs]
    rw [if_neg hc]

lemma splitNl_single (l : List Char) (hl : '\n' ∉ l) : splitNl l = [l] := by
  have := splitNl_append l hl [] [] [] rfl
  simpa using this

lemma splitNl_intercalateNl (lss : List (List Char)) (h : ∀ l ∈ lss, '\n' ∉ l)
    (hne : lss ≠ []) : splitNl (intercalateNl lss) = lss := by
  induction lss with
  | nil => exact absurd rfl hne
  | cons l rest ih =>
    cases rest with
    | nil =>
      simpa [intercalateNl] using splitNl_single l (h l (by simp))
    | cons l2 t =>
      have hrest : splitNl (intercalateNl (l2 :: t)) = l2 :: t :=
        ih (fun x hx => h x (List.mem_cons_of_mem l hx)) (by simp)
      have hn : splitNl ('\n' :: intercalateNl (l2 :: t)) = [] :: l2 :: t := by
        simp only [splitNl, hrest]
        rw [if_pos trivial]
      have happ := splitNl_append l (h l (by simp)) _ _ _ hn
      simp only [intercalateNl]
      rw [happ]
      simp

/-- C3: saving any sequence of Project records and loading it back yields the
same sequence, in content and order; a missing file loads as the empty
registry. -/
theorem save_load_round_trip (ps : List Project) :
    load_projects (some (save_projects ps)) = Except.ok ps ∧
      load_projects none = Except.ok [] := by
  refine ⟨?_, rfl⟩
  cases ps with
  | nil => rfl
  | cons p t =>
    have hwf := join_projectLines_wf (p :: t)
    have hne : ((p :: t).map projectLines).join ≠ [] := by
      simp [projectLines]
    have hsplit := splitNl_intercalateNl _ (fun l hl => (hwf l hl).1) hne
    have hdata : (save_projects (p :: t)).data =
        intercalateNl ((p :: t).map projectLines).join := rfl
    simp only [load_projects, hdata, hsplit]
    have hfil : ((p :: t).map projectLines).join.filter (fun l => !l.isEmpty) =
        ((p :: t).map projectLines).join := by
      rw [List.filter_eq_self]
      intro a ha
      have hnn := (hwf a ha).2
      simpa using hnn
    rw [hfil]
    have hlen : (p :: t).length ≤ ((p :: t).map projectLines).join.length := by
      have hj : ((p :: t).map projectLines).join =
          projectLines p ++ (t.map projectLines).join := by
        simp
      rw [hj, List.length_append]
      have h1 : t.length ≤ (t.map projectLines).join.length := by
        clear hj hfil hsplit hdata hne hwf
        induction t with
        | nil => simp
        | cons q u ihu =>
          have hq : ((q :: u).map projectLines).join =
              projectLines q ++ (u.map projectLines).join := by
            simp
          rw [hq, List.length_append]
          have : 0 < (projectLines q).length := by
            simp [projectLines]
          simp only [List.length_cons]
          omega
      have h2 : 0 < (projectLines p).length := by
        simp [projectLines]
      simp only [List.length_cons]
      omega
    simp only [parseProjects_render (p :: t) _ hlen]

lemma findIdx?_bind_getElem (p : Project → Bool) (l : List Project) :
    (l.findIdx? p).bind (fun i => l[i]?) = l.find? p := by
  induction l with
  | nil => rfl
  | cons a t ih =>
    by_cases hp : p a
    · simp [List.findIdx?_cons, hp, List.find?_cons_of_pos t hp]
    · rw [List.find?_cons_of_neg t hp]
      simp only [List.findIdx?_cons, hp, if_false, Bool.false_eq_true, List.findIdx?_succ]
      cases h : t.findIdx? p with
      | none =>
        rw [h] at ih
        simpa using ih
      | some i =>
        rw [h] at ih
        simp at ih ⊢
        exact ih

lemma findIdx?_isSome_find? (p : Project → Bool) (l : List Project) :
    (l.findIdx? p).isSome = (l.find? p).isSome := by
  rw [List.findIdx?_isSome]
  cases h : l.find? p with
  | none =>
    rw [List.find?_eq_none] at h
    simp only [Option.isSome_none]
    rw [List.any_eq_false]
    exact fun x hx => by simpa using h x hx
  | some y =>
    have := List.find?_some h
    have hmem := List.mem_of_find?_eq_some h
    simp only [Option.isSome_some]
    rw [List.any_eq_true]
    exact ⟨y, hmem, this⟩

lemma enumFrom_filter_snd (pred : Project → Bool) (l : List Project) :
    ∀ n, ((List.enumFrom n l).filter (fun x => pred x.2)).map (fun x => x.2) =
      l.filter pred := by
  induction l with
  | nil => intro n; rfl
  | cons a t ih =>
    intro n
    simp only [List.enumFrom_cons, List.filter_cons]
    by_cases hp : pred a
    · simp [hp, ih (n + 1)]
    · simp [hp, ih (n + 1)]

lemma enumFrom_filter_singleton (pred : Project → Bool) (l : List Project) :
    ∀ n i x, (List.enumFrom n l).filter (fun y => pred y.2) = [(i, x)] →
      n ≤ i ∧ l[i - n]? = some x := by
  induction l with
  | nil =>
    intro n i x h
    simp at h
  | cons a t ih =>
    intro n i x h
    simp only [List.enumFrom_cons, List.filter_cons] at h
    by_cases hp : pred a
    · simp only [hp, if_pos] at h
      have h1 : (n, a) = (i, x) := (List.cons_eq_cons.1 h).1
      have h2 : (List.enumFrom (n + 1) t).filter (fun y => pred y.2) = [] :=
        (List.cons_eq_cons.1 h).2
      obtain ⟨rfl, rfl⟩ : n = i ∧ a = x := by
        constructor <;> [exact congrArg Prod.fst h1; exact congrArg Prod.snd h1]
      refine ⟨le_refl n, ?_⟩
      simp
    · simp only [hp, if_neg, Bool.false_eq_true] at h
      obtain ⟨hn, hx⟩ := ih (n + 1) i x h
      refine ⟨by omega, ?_⟩
      have hi : i - n = (i - (n + 1)) + 1 := by omega
      rw [hi, List.getElem?_cons_succ]
      exact hx

theorem find_project_mut_agrees (ps : List Project) (q : String) :
    (find_project_mut ps q).bind (fun i => ps[i]?) = find_project ps q ∧
      (find_project_mut ps q).isSome = (find_project ps q).isSome := by
  simp only [find_project_mut, find_project]
  cases hIdx : ps.findIdx? (fun p => lowerL p.name.data == lowerL q.data) with
  | some idx =>
    have hb := findIdx?_bind_getElem (fun p => lowerL p.name.data == lowerL q.data) ps
    have hs := findIdx?_isSome_find? (fun p => lowerL p.name.data == lowerL q.data) ps
    rw [hIdx] at hb hs
    simp only [Option.isSome_some] at hs
    cases hf : ps.find? (fun p => lowerL p.name.data == lowerL q.data) with
    | none =>
      rw [hf] at hs
      simp at hs
    | some y =>
      rw [hf] at hb
      simp only [hIdx, hf]
      simp only [Option.bind] at hb ⊢
      exact ⟨hb, rfl⟩
  | none =>
    have hb := findIdx?_bind_getElem (fun p => lowerL p.name.data == lowerL q.data) ps
    rw [hIdx] at hb
    have hf : ps.find? (fun p => lowerL p.name.data == lowerL q.data) = none := by
      simpa using hb.symm
    simp only [hIdx, hf]
    have henum : ps.enum = List.enumFrom 0 ps := rfl
    have hsndP := enumFrom_filter_snd
      (fun p => startsWithL (lowerL p.name.data) (lowerL q.data)) ps 0
    have hsndC := enumFrom_filter_snd
      (fun p => containsL (lowerL p.name.data) (lowerL q.data)) ps 0
    rw [henum]
    by_cases h1 :
        (ps.filter (fun p => startsWithL (lowerL p.name.data) (lowerL q.data))).length = 1
    · have hlen : ((List.enumFrom 0 ps).filter
          (fun x => startsWithL (lowerL x.2.name.data) (lowerL q.data))).length = 1 := by
        have := congrArg List.length hsndP
        simp only [List.length_map] at this
        rw [this]
        exact h1
      rcases hef : (List.enumFrom 0 ps).filter
          (fun x => startsWithL (lowerL x.2.name.data) (lowerL q.data)) with
        _ | ⟨⟨i, x⟩, _ | ⟨y2, t2⟩⟩
      · rw [hef] at hlen
        simp at hlen
      · have hsing := enumFrom_filter_singleton
          (fun p => startsWithL (lowerL p.name.data) (lowerL q.data)) ps 0 i x hef
        have hms : ps.filter (fun p => startsWithL (lowerL p.name.data) (lowerL q.data)) =
            [x] := by
          rw [← hsndP, hef]
          rfl
        rw [hef, hms]
        simp only [List.map_cons, List.map_nil, List.length_singleton, if_pos rfl]
        simp only [Nat.sub_zero] at hsing
        simp [hsing.2]
      · rw [hef] at hlen
        simp at hlen
    · have hlen : ¬ ((List.enumFrom 0 ps).filter
          (fun x => startsWithL (lowerL x.2.name.data) (lowerL q.data))).length = 1 := by
        have := congrArg List.length hsndP
        simp only [List.length_map] at this
        rw [this]
        exact h1
      have hlenmap : ¬ (((List.enumFrom 0 ps).filter
          (fun x => startsWithL (lowerL x.2.name.data) (lowerL q.data))).map
            (fun x => x.1)).length = 1 := by
        simpa using hlen
      rw [if_neg hlenmap, if_neg h1]
      by_cases h2 :
          (ps.filter (fun p => containsL (lowerL p.name.data) (lowerL q.data))).length = 1
      · have hlen2 : ((List.enumFrom 0 ps).filter
            (fun x => containsL (lowerL x.2.name.data) (lowerL q.data))).length = 1 := by
          have := congrArg List.length hsndC
          simp only [List.length_map] at this
          rw [this]
          exact h2
        rcases hef2 : (List.enumFrom 0 ps).filter
            (fun x => containsL (lowerL x.2.name.data) (lowerL q.data)) with
          _ | ⟨⟨i, x⟩, _ | ⟨y2, t2⟩⟩
        · rw [hef2] at hlen2
          simp at hlen2
        · have hsing := enumFrom_filter_singleton
            (fun p => containsL (lowerL p.name.data) (lowerL q.data)) ps 0 i x hef2
          have hms : ps.filter (fun p => containsL (lowerL p.name.data) (lowerL q.data)) =
              [x] := by
            rw [← hsndC, hef2]
            rfl
          rw [hef2, hms]
          simp only [List.map_cons, List.map_nil, List.length_singleton, if_pos rfl]
          simp only [Nat.sub_zero] at hsing
          simp [hsing.2]
        · rw [hef2] at hlen2
          simp at hlen2
      · have hlen2 : ¬ ((List.enumFrom 0 ps).filter
            (fun x => containsL (lowerL x.2.name.data) (lowerL q.data))).length = 1 := by
          have := congrArg List.length hsndC
          simp only [List.length_map] at this
          rw [this]
          exact h2
        have hlenmap2 : ¬ (((List.enumFrom 0 ps).filter
            (fun x => containsL (lowerL x.2.name.data) (lowerL q.data))).map
              (fun x => x.1)).length = 1 := by
          simpa using hlen2
        rw [if_neg hlenmap2, if_neg h2]
        exact ⟨rfl, rfl⟩
